import Mathlib

/-!
Verification of the postgres mailserver backend
(`mailserver/mailserver_db_postgres.go`) of status-go.

The SQL store is modelled as an explicit state: a list of rows of the
`envelopes` table together with the package metrics counters.  Byte strings
(`bytea` values, archive keys, payloads) are `List Nat`; the postgres
comparison on `bytea` is lexicographic by byte, modelled by `ltBytes`.
-/

namespace Mailserver

/-- Lexicographic strict order on byte strings, as postgres compares `bytea`
values (a proper prefix is smaller). -/
def ltBytes : List Nat → List Nat → Bool
  | [], [] => false
  | [], _ :: _ => true
  | _ :: _, [] => false
  | a :: as, b :: bs => decide (a < b) || (decide (a = b) && ltBytes as bs)

/-- Lexicographic non-strict order on byte strings. -/
def leBytes (a b : List Nat) : Bool := !(ltBytes b a)

/-- Big-endian 4-byte encoding of a 32-bit unsigned integer, as
`binary.BigEndian.PutUint32` lays it out inside a key. -/
def beBytes4 (n : Nat) : List Nat :=
  [n / 2 ^ 24 % 256, n / 2 ^ 16 % 256, n / 2 ^ 8 % 256, n % 256]

/-- Go `uint32` subtraction `a - b` (wrapping modulo `2^32`). -/
def uint32Sub (a b : Nat) : Nat := (a + (2 ^ 32 - b % 2 ^ 32)) % 2 ^ 32

/-- Modelled from the spec: `DBKey` is declared outside the given source file;
the spec describes the Archive Key as a fixed 40-byte value. -/
structure DBKey where
  raw : List Nat
deriving DecidableEq

/-- Modelled from the spec: `DBKey.Bytes` returns the raw 40-byte Archive Key. -/
def DBKey.Bytes (k : DBKey) : List Nat := k.raw

/-- Modelled from the spec: `NewDBKey` builds the Archive Key as the 4-byte
big-endian sent time, then the 4-byte topic, then the 32-byte content hash. -/
def NewDBKey (timestamp : Nat) (topic : List Nat) (h : List Nat) : DBKey :=
  ⟨beBytes4 timestamp ++ topic ++ h⟩

/-- Zero value of `types.TopicType` (4 zero bytes). -/
def emptyTopic : List Nat := [0, 0, 0, 0]

/-- Zero value of `types.Hash` (32 zero bytes). -/
def zeroHash : List Nat := List.replicate 32 0

/-- Bits of one byte, most significant first, matching `fmt.Sprintf("%08b", n)`
inside `toBitString`. -/
def byteBits (n : Nat) : List Bool :=
  (List.range 8).map (fun i => n.testBit (7 - i))

/-- Bit-string built from the bloom bytes by `toBitString` (one `%08b` group
per byte, concatenated). -/
def toBitString (bloom : List Nat) : List Bool :=
  (bloom.map byteBits).flatten

/-- Value of `b'<toBitString bloom>'::bit(512)` in postgres: the bit string
zero-padded or truncated on the right to exactly 512 bits. -/
def bit512 (bloom : List Nat) : List Bool :=
  (toBitString bloom ++ List.replicate 512 false).take 512

/-- Bitwise AND of two `bit` values, as postgres `&` on equal-width bits. -/
def bitAnd (a b : List Bool) : List Bool := List.zipWith and a b

/-- One whisper envelope as this store sees it: 4-byte topic, `uint32` expiry
and ttl, 32-byte hash, 64-byte bloom, the result of
`rlp.EncodeToBytes(env.Unwrap())` (none models a serialization failure), and
`env.Size()`. -/
structure Envelope where
  topic : List Nat
  expiry : Nat
  ttl : Nat
  hash : List Nat
  bloom : List Nat
  encoded : Option (List Nat)
  size : Nat
deriving DecidableEq

/-- First four topic bytes, as `topicToByte` produces `[]byte{t[0],t[1],t[2],t[3]}`. -/
def topicToByte (t : List Nat) : List Nat :=
  [t.getD 0 0, t.getD 1 0, t.getD 2 0, t.getD 3 0]

/-- Modelled from the spec: `whisper.EnvelopeHeaderLength`, the fixed
per-protocol header overhead added to the payload size in the histogram. -/
def EnvelopeHeaderLength : Nat := 20

/-- One row of the `envelopes` table: `id` (bytea primary key), `data`
(bytea payload), `topic` (bytea), `bloom` (bit(512)). -/
structure Row where
  id : List Nat
  data : List Nat
  topic : List Nat
  bloom : List Bool
deriving DecidableEq

/-- State of the postgres backend: the rows of `envelopes` plus the package
metrics (`archivedErrorsCounter`, `archivedEnvelopesCounter`,
`archivedEnvelopeSizeMeter`). -/
structure PGState where
  rows : List Row
  archivedErrors : Nat
  archivedEnvelopes : Nat
  sizeObservations : List Nat
deriving DecidableEq

/-- Archive Key derived for an envelope in `SaveEnvelope`:
`NewDBKey(env.Expiry()-env.TTL(), env.Topic(), env.Hash())`. -/
def envelopeKey (env : Envelope) : DBKey :=
  NewDBKey (uint32Sub env.expiry env.ttl) env.topic env.hash

/-- `SaveEnvelope`: derive the key, RLP-encode the payload (on failure bump the
error counter and return the error), then
`INSERT ... ON CONFLICT (id) DO NOTHING` and bump the success metrics. -/
def SaveEnvelope (st : PGState) (env : Envelope) : PGState × Except String Unit :=
  let key := NewDBKey (uint32Sub env.expiry env.ttl) env.topic env.hash
  match env.encoded with
  | none =>
      ({ st with archivedErrors := st.archivedErrors + 1 },
       Except.error "failed to encode envelope to bytes")
  | some rawEnvelope =>
      let rows' :=
        if st.rows.any (fun r => r.id == key.raw) then st.rows
        else st.rows ++ [{ id := key.raw, data := rawEnvelope,
                           topic := topicToByte env.topic,
                           bloom := bit512 env.bloom }]
      ({ st with rows := rows',
                 archivedEnvelopes := st.archivedEnvelopes + 1,
                 sizeObservations :=
                   st.sizeObservations ++ [EnvelopeHeaderLength + env.size] },
       Except.ok ())

/-- `GetEnvelope`: `SELECT data FROM envelopes WHERE id = $1`, erring when no
row matches. -/
def GetEnvelope (st : PGState) (key : DBKey) : Except String (List Nat) :=
  match st.rows.find? (fun r => r.id == key.Bytes) with
  | some r => Except.ok r.data
  | none => Except.error "sql: no rows in result set"

/-- Modelled from the spec: `CursorQuery` is declared outside the given source
file; it carries the key-range bounds `start`/`end`, an optional continuation
`cursor`, exact `topics`, a `bloom` filter and a row `limit`. -/
structure CursorQuery where
  start : List Nat
  end_ : List Nat
  cursor : List Nat
  topics : List (List Nat)
  bloom : List Nat
  limit : Nat
deriving DecidableEq

/-- Range part of the `WHERE` clause of `BuildIterator`: with a cursor,
`id >= $start AND id < $cursor`; without, `id >= $start AND id <= $end`. -/
def rangeB (q : CursorQuery) (r : Row) : Bool :=
  if 0 < q.cursor.length then leBytes q.start r.id && ltBytes r.id q.cursor
  else leBytes q.start r.id && leBytes r.id q.end_

/-- Filter part of the `WHERE` clause of `BuildIterator`: with topics,
`topic = any($topics)`; otherwise `bloom & b'...'::bit(512) = bloom`. -/
def filterB (q : CursorQuery) (r : Row) : Bool :=
  if 0 < q.topics.length then q.topics.contains r.topic
  else bitAnd r.bloom (bit512 q.bloom) == r.bloom

/-- Full `WHERE` predicate of `BuildIterator` (conjunction of range and filter). -/
def queryPred (q : CursorQuery) (r : Row) : Bool := rangeB q r && filterB q r

/-- Insertion into a descending-by-id list. -/
def insertDesc (r : Row) : List Row → List Row
  | [] => [r]
  | x :: xs => if ltBytes x.id r.id then r :: x :: xs else x :: insertDesc r xs

/-- Sorting in descending id order, as `ORDER BY ID DESC`. -/
def sortDesc : List Row → List Row
  | [] => []
  | x :: xs => insertDesc x (sortDesc xs)

/-- Rows of the scan `BuildIterator` opens, before the `LIMIT` cut. -/
def candidateRows (st : PGState) (q : CursorQuery) : List Row :=
  sortDesc (st.rows.filter (queryPred q))

/-- Rows the iterator of `BuildIterator` yields:
`WHERE ... ORDER BY ID DESC LIMIT $limit`. -/
def buildIteratorRows (st : PGState) (q : CursorQuery) : List Row :=
  (candidateRows st q).take q.limit

/-- `BuildIterator`: builds the statement and opens the scan.  The only error
paths in the source are driver failures (`Prepare`/`Query`), absent from the
model, so the result is always `ok`; no parameter validation is performed. -/
def BuildIterator (st : PGState) (q : CursorQuery) : Except String (List Row) :=
  Except.ok (buildIteratorRows st q)

/-- Lower key of the `Prune` range: `NewDBKey(0, emptyTopic, zero)`. -/
def pruneLowerKey : DBKey := NewDBKey 0 emptyTopic zeroHash

/-- Upper key of the `Prune` range: `NewDBKey(uint32(t.Unix()), emptyTopic, zero)`. -/
def pruneUpperKey (t : Nat) : DBKey := NewDBKey (t % 2 ^ 32) emptyTopic zeroHash

/-- Predicate of `DELETE FROM envelopes WHERE id BETWEEN $1 AND $2`
(both bounds inclusive). -/
def pruneInRange (t : Nat) (r : Row) : Bool :=
  leBytes pruneLowerKey.raw r.id && leBytes r.id (pruneUpperKey t).raw

/-- `Prune`: deletes the rows in the inclusive key range and returns the number
of rows affected.  `t` is the cutoff as Unix seconds (`t.Unix()`); the `batch`
argument is accepted but never consulted. -/
def Prune (st : PGState) (t : Nat) (batch : Nat) : PGState × Nat :=
  ({ st with rows := st.rows.filter (fun r => !(pruneInRange t r)) },
   st.rows.countP (fun r => pruneInRange t r))

/-- Big-endian value of a byte string. -/
def bytesToNat : List Nat → Nat
  | [] => 0
  | b :: l => b * 256 ^ l.length + bytesToNat l

/-- Sent time recorded in an Archive Key: the big-endian value of its first
four bytes. -/
def keySentTime (id : List Nat) : Nat := bytesToNat (id.take 4)

/-- Well-formed Archive Key: exactly 40 bytes, every byte below 256. -/
def validId (id : List Nat) : Prop := id.length = 40 ∧ ∀ b ∈ id, b < 256

instance : DecidablePred validId := fun i => by
  unfold validId
  infer_instance

/-- Paginated driving loop described by the spec: run a page, and while a page
comes back full, feed the last returned key back in as the cursor. -/
def runPages (st : PGState) : Nat → CursorQuery → List Row
  | 0, _ => []
  | fuel + 1, q =>
      let page := buildIteratorRows st q
      if page.length < q.limit then page
      else
        match page.getLast? with
        | none => page
        | some r => page ++ runPages st fuel { q with cursor := r.id }

/-- Row `a` sorts no later than row `b` in the descending scan. -/
def rowGE (a b : Row) : Prop := leBytes b.id a.id = true

/-- Row `a` sorts strictly before row `b` in the descending scan. -/
def rowGT (a b : Row) : Prop := ltBytes b.id a.id = true

/-- Repeated saving: fold `SaveEnvelope` over a list of envelopes, keeping the
state. -/
def saveAll (st : PGState) (envs : List Envelope) : PGState :=
  envs.foldl (fun s e => (SaveEnvelope s e).1) st

theorem ltBytes_irrefl : ∀ l, ltBytes l l = false := by
  intro l
  induction l with
  | nil => rfl
  | cons a as ih => simp [ltBytes, ih]

theorem ltBytes_trans : ∀ a b c, ltBytes a b = true → ltBytes b c = true →
    ltBytes a c = true := by
  intro a
  induction a with
  | nil =>
    intro b c hab hbc
    cases b with
    | nil => simp [ltBytes] at hab
    | cons y ys =>
      cases c with
      | nil => simp [ltBytes] at hbc
      | cons z zs => simp [ltBytes]
  | cons x xs ih =>
    intro b c hab hbc
    cases b with
    | nil => simp [ltBytes] at hab
    | cons y ys =>
      cases c with
      | nil => simp [ltBytes] at hbc
      | cons z zs =>
        simp only [ltBytes, Bool.or_eq_true, Bool.and_eq_true, decide_eq_true_eq] at hab hbc ⊢
        rcases hab with h1 | ⟨h1, h1t⟩
        · rcases hbc with h2 | ⟨h2, _⟩
          · exact Or.inl (Nat.lt_trans h1 h2)
          · exact Or.inl (h2 ▸ h1)
        · rcases hbc with h2 | ⟨h2, h2t⟩
          · exact Or.inl (h1 ▸ h2)
          · exact Or.inr ⟨h1.trans h2, ih ys zs h1t h2t⟩

theorem ltBytes_total : ∀ a b, ltBytes a b = false → ltBytes b a = false → a = b := by
  intro a
  induction a with
  | nil =>
    intro b hab _
    cases b with
    | nil => rfl
    | cons y ys => simp [ltBytes] at hab
  | cons x xs ih =>
    intro b hab hba
    cases b with
    | nil => simp [ltBytes] at hba
    | cons y ys =>
      simp only [ltBytes, Bool.or_eq_false_iff, Bool.and_eq_false_iff,
        decide_eq_false_iff_not, Nat.not_lt] at hab hba
      have hxy : x = y := Nat.le_antisymm hba.1 hab.1
      subst hxy
      rcases hab.2 with h | h
      · simp at h
      · rcases hba.2 with h2 | h2
        · simp at h2
        · rw [ih ys h h2]

theorem ltBytes_asymm : ∀ a b, ltBytes a b = true → ltBytes b a = false := by
  intro a b hab
  cases hba : ltBytes b a with
  | false => rfl
  | true =>
    have := ltBytes_trans a b a hab hba
    rw [ltBytes_irrefl] at this
    exact absurd this (by simp)

theorem leBytes_refl (l : List Nat) : leBytes l l = true := by
  simp [leBytes, ltBytes_irrefl]

theorem leBytes_trans : ∀ a b c, leBytes a b = true → leBytes b c = true →
    leBytes a c = true := by
  intro a b c hab hbc
  simp only [leBytes, Bool.not_eq_true'] at hab hbc ⊢
  cases hA : ltBytes a b with
  | false =>
    have h : a = b := ltBytes_total a b hA hab
    subst h
    exact hbc
  | true =>
    cases hca : ltBytes c a with
    | false => rfl
    | true =>
      have h := ltBytes_trans c a b hca hA
      rw [hbc] at h
      exact absurd h (by simp)

theorem ltBytes_of_lt_of_le : ∀ a b c, ltBytes a b = true → leBytes b c = true →
    ltBytes a c = true := by
  intro a b c hab hbc
  simp only [leBytes, Bool.not_eq_true'] at hbc
  cases hac : ltBytes a c with
  | true => rfl
  | false =>
    cases hca : ltBytes c a with
    | true =>
      have h := ltBytes_trans c a b hca hab
      rw [hbc] at h
      exact h
    | false =>
      have h : a = c := ltBytes_total a c hac hca
      subst h
      rw [hbc] at hab
      exact hab

theorem ltBytes_of_le_of_lt : ∀ a b c, leBytes a b = true → ltBytes b c = true →
    ltBytes a c = true := by
  intro a b c hab hbc
  simp only [leBytes, Bool.not_eq_true'] at hab
  cases hac : ltBytes a c with
  | true => rfl
  | false =>
    cases hca : ltBytes c a with
    | true =>
      have h := ltBytes_trans b c a hbc hca
      rw [hab] at h
      exact h
    | false =>
      have h : a = c := ltBytes_total a c hac hca
      subst h
      rw [hbc] at hab
      exact absurd hab (by simp)

theorem leBytes_of_lt : ∀ a b, ltBytes a b = true → leBytes a b = true := by
  intro a b hab
  simp only [leBytes, Bool.not_eq_true']
  exact ltBytes_asymm a b hab

theorem ltBytes_connex : ∀ a b, a ≠ b → ltBytes a b = true ∨ ltBytes b a = true := by
  intro a b hne
  cases hab : ltBytes a b with
  | true => exact Or.inl rfl
  | false =>
    cases hba : ltBytes b a with
    | true => exact Or.inr rfl
    | false => exact absurd (ltBytes_total a b hab hba) hne

instance : IsAntisymm Row rowGT :=
  ⟨fun a b h1 h2 => by
    unfold rowGT at h1 h2
    rw [ltBytes_asymm b.id a.id h1] at h2
    exact absurd h2 (by simp)⟩

theorem insertDesc_perm (r : Row) : ∀ l : List Row, List.Perm (insertDesc r l) (r :: l) := by
  intro l
  induction l with
  | nil => rfl
  | cons x xs ih =>
    rw [insertDesc]
    split
    · rfl
    · exact (ih.cons x).trans (List.Perm.swap r x xs)

theorem sortDesc_perm : ∀ l : List Row, List.Perm (sortDesc l) l := by
  intro l
  induction l with
  | nil => rfl
  | cons x xs ih =>
    rw [sortDesc]
    exact (insertDesc_perm x (sortDesc xs)).trans (ih.cons x)

theorem mem_sortDesc {a : Row} {l : List Row} : a ∈ sortDesc l ↔ a ∈ l :=
  (sortDesc_perm l).mem_iff

theorem mem_insertDesc {a r : Row} {l : List Row} :
    a ∈ insertDesc r l ↔ a = r ∨ a ∈ l := by
  rw [(insertDesc_perm r l).mem_iff, List.mem_cons]

theorem pairwise_insertDesc (r : Row) (l : List Row)
    (h : List.Pairwise rowGE l) : List.Pairwise rowGE (insertDesc r l) := by
  induction l with
  | nil => simp [insertDesc, rowGE]
  | cons x xs ih =>
    rw [insertDesc]
    split
    case isTrue hx =>
      refine List.Pairwise.cons ?_ h
      intro y hy
      rcases List.mem_cons.mp hy with hy | hy
      · subst hy
        exact leBytes_of_lt _ _ hx
      · have hle : leBytes y.id x.id = true := (List.pairwise_cons.mp h).1 y hy
        exact leBytes_trans _ _ _ hle (leBytes_of_lt _ _ hx)
    case isFalse hx =>
      have hxs := (List.pairwise_cons.mp h).2
      refine List.Pairwise.cons ?_ (ih hxs)
      intro y hy
      rcases mem_insertDesc.mp hy with hy | hy
      · subst hy
        unfold rowGE leBytes
        simp only [Bool.not_eq_true', ← Bool.not_eq_true]
        exact hx
      · exact (List.pairwise_cons.mp h).1 y hy

theorem sortDesc_sorted : ∀ l : List Row, List.Pairwise rowGE (sortDesc l) := by
  intro l
  induction l with
  | nil => exact List.Pairwise.nil
  | cons x xs ih => exact pairwise_insertDesc x (sortDesc xs) ih

theorem pairwise_rowGT_of_rowGE {l : List Row} (h : List.Pairwise rowGE l)
    (hnd : (l.map Row.id).Nodup) : List.Pairwise rowGT l := by
  rw [List.Nodup, List.pairwise_map] at hnd
  refine (h.and hnd).imp ?_
  rintro a b ⟨hge, hne⟩
  unfold rowGE leBytes at hge
  rw [Bool.not_eq_true'] at hge
  rcases ltBytes_connex a.id b.id hne with hlt | hlt
  · rw [hge] at hlt
    exact absurd hlt (by simp)
  · exact hlt

theorem sortDesc_strictSorted (l : List Row) (hnd : (l.map Row.id).Nodup) :
    List.Pairwise rowGT (sortDesc l) := by
  refine pairwise_rowGT_of_rowGE (sortDesc_sorted l) ?_
  exact (((sortDesc_perm l).map Row.id).nodup_iff).mpr hnd

theorem sortDesc_filter_comm (p : Row → Bool) (l : List Row)
    (hnd : (l.map Row.id).Nodup) :
    sortDesc (l.filter p) = (sortDesc l).filter p := by
  refine List.eq_of_perm_of_sorted (r := rowGT) ?_ ?_ ?_
  · exact (sortDesc_perm (l.filter p)).trans ((sortDesc_perm l).filter p).symm
  · refine sortDesc_strictSorted (l.filter p) ?_
    exact ((List.filter_sublist l).map Row.id).nodup hnd
  · exact (sortDesc_strictSorted l hnd).filter p

theorem bytesToNat_lt_pow (l : List Nat) (h : ∀ b ∈ l, b < 256) :
    bytesToNat l < 256 ^ l.length := by
  induction l with
  | nil => simp [bytesToNat]
  | cons x xs ih =>
    have hx : x < 256 := h x (by simp)
    have hxs : bytesToNat xs < 256 ^ xs.length := ih (fun b hb => h b (by simp [hb]))
    simp only [bytesToNat, List.length_cons, pow_succ]
    calc x * 256 ^ xs.length + bytesToNat xs
        < x * 256 ^ xs.length + 256 ^ xs.length := by omega
      _ = (x + 1) * 256 ^ xs.length := by ring
      _ ≤ 256 * 256 ^ xs.length := by
          exact Nat.mul_le_mul_right _ (by omega)
      _ = 256 ^ xs.length * 256 := by ring

theorem ltBytes_eq_decide_lt : ∀ a b : List Nat, a.length = b.length →
    (∀ x ∈ a, x < 256) → (∀ x ∈ b, x < 256) →
    ltBytes a b = decide (bytesToNat a < bytesToNat b) := by
  intro a
  induction a with
  | nil =>
    intro b hlen _ _
    cases b with
    | nil => simp [ltBytes, bytesToNat]
    | cons y ys => simp at hlen
  | cons x xs ih =>
    intro b hlen ha hb
    cases b with
    | nil => simp at hlen
    | cons y ys =>
      have hlen' : xs.length = ys.length := by simpa using hlen
      have hA : bytesToNat xs < 256 ^ xs.length :=
        bytesToNat_lt_pow xs (fun v hv => ha v (by simp [hv]))
      have hB : bytesToNat ys < 256 ^ ys.length :=
        bytesToNat_lt_pow ys (fun v hv => hb v (by simp [hv]))
      have ihr := ih ys hlen' (fun v hv => ha v (by simp [hv]))
        (fun v hv => hb v (by simp [hv]))
      simp only [ltBytes, bytesToNat, ihr, hlen']
      rcases Nat.lt_trichotomy x y with hxy | hxy | hxy
      · have hlt : x * 256 ^ ys.length + bytesToNat xs < y * 256 ^ ys.length + bytesToNat ys := by
          calc x * 256 ^ ys.length + bytesToNat xs
              < x * 256 ^ ys.length + 256 ^ ys.length := by
                rw [hlen'] at hA; omega
            _ = (x + 1) * 256 ^ ys.length := by ring
            _ ≤ y * 256 ^ ys.length := Nat.mul_le_mul_right _ (by omega)
            _ ≤ y * 256 ^ ys.length + bytesToNat ys := Nat.le_add_right _ _
        simp [hxy, Nat.ne_of_lt hxy, hlt]
      · subst hxy
        simp [Nat.lt_irrefl]
      · have hge : ¬ (x * 256 ^ ys.length + bytesToNat xs < y * 256 ^ ys.length + bytesToNat ys) := by
          have : y * 256 ^ ys.length + bytesToNat ys < x * 256 ^ ys.length := by
            calc y * 256 ^ ys.length + bytesToNat ys
                < y * 256 ^ ys.length + 256 ^ ys.length := by omega
              _ = (y + 1) * 256 ^ ys.length := by ring
              _ ≤ x * 256 ^ ys.length := Nat.mul_le_mul_right _ (by omega)
          omega
        simp [Nat.lt_asymm hxy, Nat.ne_of_gt hxy, hge]

theorem bytesToNat_inj (a b : List Nat) (hlen : a.length = b.length)
    (ha : ∀ x ∈ a, x < 256) (hb : ∀ x ∈ b, x < 256)
    (h : bytesToNat a = bytesToNat b) : a = b := by
  refine ltBytes_total a b ?_ ?_
  · rw [ltBytes_eq_decide_lt a b hlen ha hb]
    simp [h]
  · rw [ltBytes_eq_decide_lt b a hlen.symm hb ha]
    simp [h]

theorem ltBytes_append : ∀ a b x y : List Nat, a.length = b.length →
    ltBytes (a ++ x) (b ++ y) = (ltBytes a b || (decide (a = b) && ltBytes x y)) := by
  intro a
  induction a with
  | nil =>
    intro b x y hlen
    cases b with
    | nil => simp [ltBytes]
    | cons q bs => simp at hlen
  | cons p as ih =>
    intro b x y hlen
    cases b with
    | nil => simp at hlen
    | cons q bs =>
      have hlen' : as.length = bs.length := by simpa using hlen
      rw [List.cons_append, List.cons_append]
      show (decide (p < q) || (decide (p = q) && ltBytes (as ++ x) (bs ++ y)))
          = ((decide (p < q) || (decide (p = q) && ltBytes as bs))
             || (decide ((p :: as) = (q :: bs)) && ltBytes x y))
      rw [ih bs x y hlen']
      have hd : decide ((p :: as) = (q :: bs)) = (decide (p = q) && decide (as = bs)) := by
        by_cases h1 : p = q <;> by_cases h2 : as = bs <;> simp [h1, h2]
      rw [hd]
      generalize decide (p < q) = A
      generalize decide (p = q) = C
      generalize decide (as = bs) = E
      generalize ltBytes as bs = D
      generalize ltBytes x y = F
      cases A <;> cases C <;> cases E <;> cases D <;> cases F <;> rfl

theorem ltBytes_replicate_zero_right : ∀ l : List Nat,
    ltBytes l (List.replicate l.length 0) = false := by
  intro l
  induction l with
  | nil => rfl
  | cons a as ih =>
    simp only [List.length_cons, List.replicate_succ, ltBytes]
    simp [ih]

theorem ltBytes_replicate_zero_left : ∀ l : List Nat,
    (ltBytes (List.replicate l.length 0) l = true ↔ l ≠ List.replicate l.length 0) := by
  intro l
  induction l with
  | nil => simp [ltBytes]
  | cons a as ih =>
    simp only [List.length_cons, List.replicate_succ, ltBytes]
    rcases Nat.eq_zero_or_pos a with ha | ha
    · subst ha
      simp [ih]
    · simp [ha, Nat.ne_of_gt ha]

theorem beBytes4_length (n : Nat) : (beBytes4 n).length = 4 := rfl

theorem beBytes4_bytes_lt (n : Nat) : ∀ b ∈ beBytes4 n, b < 256 := by
  intro b hb
  simp only [beBytes4, List.mem_cons, List.not_mem_nil, or_false] at hb
  rcases hb with h | h | h | h <;> subst h <;> omega

theorem bytesToNat_beBytes4 (n : Nat) : bytesToNat (beBytes4 n) = n % 2 ^ 32 := by
  simp only [beBytes4, bytesToNat, List.length_cons, List.length_nil]
  norm_num
  omega

theorem pruneLowerKey_raw : pruneLowerKey.raw = List.replicate 40 0 := by decide

theorem pruneUpperKey_raw (t : Nat) :
    (pruneUpperKey t).raw = beBytes4 (t % 2 ^ 32) ++ List.replicate 36 0 := by
  show beBytes4 (t % 2 ^ 32) ++ emptyTopic ++ zeroHash = _
  rw [List.append_assoc]
  have h : emptyTopic ++ zeroHash = List.replicate 36 0 := by decide
  rw [h]

theorem keySentTime_pruneUpperKey (t : Nat) (ht : t < 2 ^ 32) :
    keySentTime (pruneUpperKey t).raw = t := by
  rw [pruneUpperKey_raw, keySentTime, Nat.mod_eq_of_lt ht,
    List.take_left' (beBytes4_length t), bytesToNat_beBytes4, Nat.mod_eq_of_lt ht]

theorem pruneInRange_iff (t : Nat) (r : Row) (ht : t < 2 ^ 32) (hv : validId r.id) :
    (pruneInRange t r = true ↔ keySentTime r.id < t ∨ r.id = (pruneUpperKey t).raw) := by
  obtain ⟨hlen, hbytes⟩ := hv
  have hlow : leBytes pruneLowerKey.raw r.id = true := by
    unfold leBytes
    rw [pruneLowerKey_raw]
    rw [show (40 : Nat) = r.id.length from hlen.symm, ltBytes_replicate_zero_right r.id]
    rfl
  unfold pruneInRange
  rw [hlow, Bool.true_and]
  set p := r.id.take 4 with hp
  set s := r.id.drop 4 with hs
  have hsplit : p ++ s = r.id := List.take_append_drop 4 r.id
  have hplen : p.length = 4 := by simp [hp, hlen]
  have hslen : s.length = 36 := by simp [hs, hlen]
  have hpbytes : ∀ x ∈ p, x < 256 := fun x hx => hbytes x (List.mem_of_mem_take hx)
  have hsbytes : ∀ x ∈ s, x < 256 := fun x hx => hbytes x (List.mem_of_mem_drop hx)
  have hN : bytesToNat (beBytes4 t) = t := by rw [bytesToNat_beBytes4, Nat.mod_eq_of_lt ht]
  have hkst : keySentTime (p ++ s) = bytesToNat p := by
    rw [keySentTime, List.take_left' hplen]
  have hku : (pruneUpperKey t).raw = beBytes4 t ++ List.replicate 36 0 := by
    rw [pruneUpperKey_raw, Nat.mod_eq_of_lt ht]
  unfold leBytes
  rw [hku, ← hsplit]
  rw [ltBytes_append (beBytes4 t) p (List.replicate 36 0) s (by rw [hplen]; rfl)]
  rw [ltBytes_eq_decide_lt (beBytes4 t) p (by rw [hplen]; rfl) (beBytes4_bytes_lt t) hpbytes]
  rw [hN, hkst]
  have hzs : ltBytes (List.replicate 36 0) s = (decide (s ≠ List.replicate 36 0)) := by
    rcases hzs' : decide (s ≠ List.replicate 36 0) with _ | _
    · simp only [decide_eq_false_iff_not, not_not] at hzs'
      rw [hzs']
      rw [show (36 : Nat) = s.length from hslen.symm] at hzs' ⊢
      rw [hzs', ltBytes_irrefl]
    · simp only [decide_eq_true_eq] at hzs'
      rw [show (36 : Nat) = s.length from hslen.symm] at hzs' ⊢
      exact (ltBytes_replicate_zero_left s).mpr hzs'
  rw [hzs]
  rcases Nat.lt_trichotomy (bytesToNat p) t with hcmp | hcmp | hcmp
  · have hne : ¬ (beBytes4 t = p) := by
      intro h
      rw [← h, hN] at hcmp
      exact Nat.lt_irrefl t hcmp
    simp [hcmp, Nat.lt_asymm hcmp, hne]
  · have heq : beBytes4 t = p := by
      refine bytesToNat_inj (beBytes4 t) p (by rw [hplen]; rfl)
        (beBytes4_bytes_lt t) hpbytes ?_
      rw [hN, hcmp]
    constructor
    · intro h
      refine Or.inr ?_
      have hs36 : s = List.replicate 36 0 := by
        by_contra hsne
        rw [heq] at h
        simp [hcmp, hsne] at h
        exact hsne (by rw [h]; decide)
      rw [hs36, heq]
    · intro h
      rcases h with h | h
      · rw [hcmp] at h
        exact absurd h (Nat.lt_irrefl t)
      · have hinj := List.append_inj h (by rw [hplen]; rfl)
        simp [hcmp, heq, hinj.2]
  · have hne : ¬ (beBytes4 t = p) := by
      intro h
      rw [← h, hN] at hcmp
      exact Nat.lt_irrefl t hcmp
    have hlt : t < bytesToNat p := hcmp
    constructor
    · intro h
      simp [hlt, hne] at h
    · intro h
      rcases h with h | h
      · exact absurd h (Nat.lt_asymm hlt)
      · have hinj := List.append_inj h (by rw [hplen]; rfl)
        exact absurd hinj.1.symm hne

theorem find?_append_right (p : Row → Bool) (l1 l2 : List Row)
    (h : ∀ x ∈ l1, p x = false) : (l1 ++ l2).find? p = l2.find? p := by
  induction l1 with
  | nil => rfl
  | cons a as ih =>
    rw [List.cons_append, List.find?_cons_of_neg]
    · exact ih (fun x hx => h x (List.mem_cons_of_mem a hx))
    · simp [h a (List.mem_cons_self a as)]

theorem SaveEnvelope_none (st : PGState) (env : Envelope)
    (henc : env.encoded = none) :
    SaveEnvelope st env =
      (⟨st.rows, st.archivedErrors + 1, st.archivedEnvelopes, st.sizeObservations⟩,
       Except.error "failed to encode envelope to bytes") := by
  cases env with
  | mk topic expiry ttl hash bloom enc size =>
    cases henc
    rfl

theorem SaveEnvelope_some (st : PGState) (env : Envelope) (raw : List Nat)
    (henc : env.encoded = some raw) :
    SaveEnvelope st env =
      (⟨(if (st.rows.any fun r => r.id == (envelopeKey env).raw) then st.rows
         else st.rows ++
           [⟨(envelopeKey env).raw, raw, topicToByte env.topic, bit512 env.bloom⟩]),
        st.archivedErrors, st.archivedEnvelopes + 1,
        st.sizeObservations ++ [EnvelopeHeaderLength + env.size]⟩,
       Except.ok ()) := by
  cases env with
  | mk topic expiry ttl hash bloom enc size =>
    cases henc
    rfl

theorem SaveEnvelope_key_present (st : PGState) (env : Envelope) (raw : List Nat)
    (henc : env.encoded = some raw) :
    ((SaveEnvelope st env).1.rows.any fun r => r.id == (envelopeKey env).raw) = true := by
  rw [SaveEnvelope_some st env raw henc]
  cases hany : (st.rows.any fun r => r.id == (envelopeKey env).raw) with
  | true => simpa using hany
  | false =>
    simp only [Bool.false_eq_true, if_false]
    rw [List.any_append]
    simp

theorem SaveEnvelope_duplicate (st : PGState) (env : Envelope) (raw : List Nat)
    (henc : env.encoded = some raw)
    (hpresent : (st.rows.any fun r => r.id == (envelopeKey env).raw) = true) :
    (SaveEnvelope st env).2 = Except.ok () ∧ (SaveEnvelope st env).1.rows = st.rows := by
  rw [SaveEnvelope_some st env raw henc, hpresent]
  exact ⟨rfl, by simp⟩

theorem saveAll_rows_of_present (env : Envelope) : ∀ (envs : List Envelope) (st' : PGState),
    (∀ e ∈ envs, (envelopeKey e).raw = (envelopeKey env).raw ∧ e.encoded.isSome) →
    (st'.rows.any fun r => r.id == (envelopeKey env).raw) = true →
    (saveAll st' envs).rows = st'.rows := by
  intro envs
  induction envs with
  | nil => intro st' _ _; rfl
  | cons e es ih =>
    intro st' hdup hpresent
    obtain ⟨hkey, hsome⟩ := hdup e (List.mem_cons_self e es)
    obtain ⟨re, hre⟩ := Option.isSome_iff_exists.mp hsome
    have hpresent' : (st'.rows.any fun r => r.id == (envelopeKey e).raw) = true := by
      rw [hkey]; exact hpresent
    have hrows := (SaveEnvelope_duplicate st' e re hre hpresent').2
    show (saveAll (SaveEnvelope st' e).1 es).rows = st'.rows
    rw [ih (SaveEnvelope st' e).1
      (fun x hx => hdup x (List.mem_cons_of_mem e hx)) (by rw [hrows]; exact hpresent),
      hrows]

/-- C7: if the payload fails to serialize, `SaveEnvelope` returns the encode
error, increments the archive-failure counter by exactly one, and leaves the
rows, the success counter and the size histogram unchanged. -/
theorem claim_C7_encode_failure_atomic (st : PGState) (env : Envelope)
    (henc : env.encoded = none) :
    (SaveEnvelope st env).2 = Except.error "failed to encode envelope to bytes" ∧
    (SaveEnvelope st env).1.rows = st.rows ∧
    (SaveEnvelope st env).1.archivedErrors = st.archivedErrors + 1 ∧
    (SaveEnvelope st env).1.archivedEnvelopes = st.archivedEnvelopes ∧
    (SaveEnvelope st env).1.sizeObservations = st.sizeObservations := by
  rw [SaveEnvelope_none st env henc]
  exact ⟨rfl, rfl, rfl, rfl, rfl⟩

theorem claim_C7_encode_failure_atomic_witness :
    (SaveEnvelope ⟨[], 0, 0, []⟩
      ⟨[1, 2, 3, 4], 10, 3, zeroHash, List.replicate 64 0, none, 5⟩).1.archivedErrors = 1 :=
  (claim_C7_encode_failure_atomic ⟨[], 0, 0, []⟩
    ⟨[1, 2, 3, 4], 10, 3, zeroHash, List.replicate 64 0, none, 5⟩ rfl).2.2.1

/-- C10: `Prune` never consults its batch argument: for any cutoff `t` and any
two batch sizes, pruning the same store deletes the same rows and returns the
same count. -/
theorem claim_C10_prune_batch_independent (st : PGState) (t b1 b2 : Nat) :
    Prune st t b1 = Prune st t b2 := rfl

/-- C1: an envelope saved exactly once (its key not yet present) is returned
byte-identical by `GetEnvelope` at the Archive Key derived from the envelope
(big-endian sent time `expiry - ttl`, then topic, then content hash). -/
theorem claim_C1_roundtrip (st : PGState) (env : Envelope) (raw : List Nat)
    (henc : env.encoded = some raw)
    (hfresh : ∀ r ∈ st.rows, r.id ≠ (envelopeKey env).raw) :
    (SaveEnvelope st env).2 = Except.ok () ∧
    GetEnvelope (SaveEnvelope st env).1
      (NewDBKey (uint32Sub env.expiry env.ttl) env.topic env.hash) =
      Except.ok raw := by
  have hany : (st.rows.any fun r => r.id == (envelopeKey env).raw) = false := by
    rw [List.any_eq_false]
    intro r hr
    simpa using hfresh r hr
  rw [SaveEnvelope_some st env raw henc, hany]
  refine ⟨rfl, ?_⟩
  simp only [Bool.false_eq_true, if_false]
  unfold GetEnvelope DBKey.Bytes
  rw [find?_append_right]
  · rw [List.find?_cons_of_pos]
    simp [envelopeKey]
  · intro x hx
    simpa [envelopeKey] using hfresh x hx

theorem claim_C1_roundtrip_witness :
    GetEnvelope (SaveEnvelope ⟨[], 0, 0, []⟩
        ⟨[1, 2, 3, 4], 100, 40, zeroHash, List.replicate 64 0, some [9, 9], 2⟩).1
      (NewDBKey (uint32Sub 100 40) [1, 2, 3, 4] zeroHash) = Except.ok [9, 9] :=
  (claim_C1_roundtrip ⟨[], 0, 0, []⟩
    ⟨[1, 2, 3, 4], 100, 40, zeroHash, List.replicate 64 0, some [9, 9], 2⟩ [9, 9]
    rfl (by simp)).2

/-- C2: saving the same Archive Key repeatedly is idempotent: after the first
save, every further save of an envelope with that key succeeds without error,
the rows never change (no overwrite), and exactly one row with the key exists. -/
theorem claim_C2_save_idempotent (st : PGState) (env : Envelope)
    (envs : List Envelope) (raw : List Nat) (henc : env.encoded = some raw)
    (hdup : ∀ e ∈ envs, (envelopeKey e).raw = (envelopeKey env).raw ∧ e.encoded.isSome)
    (hfresh : ∀ r ∈ st.rows, r.id ≠ (envelopeKey env).raw) :
    (∀ l1 e l2, envs = l1 ++ e :: l2 →
        (SaveEnvelope (saveAll (SaveEnvelope st env).1 l1) e).2 = Except.ok ()) ∧
    (saveAll (SaveEnvelope st env).1 envs).rows = (SaveEnvelope st env).1.rows ∧
    ((saveAll (SaveEnvelope st env).1 envs).rows.countP
        fun r => r.id == (envelopeKey env).raw) = 1 := by
  have hpres1 := SaveEnvelope_key_present st env raw henc
  refine ⟨?_, ?_, ?_⟩
  · intro l1 e l2 hsplit
    have hl1 : ∀ x ∈ l1, (envelopeKey x).raw = (envelopeKey env).raw ∧ x.encoded.isSome :=
      fun x hx => hdup x (by rw [hsplit]; exact List.mem_append_left _ hx)
    obtain ⟨hkey, hsome⟩ := hdup e (by rw [hsplit]; exact List.mem_append_right _ (List.mem_cons_self e l2))
    obtain ⟨re, hre⟩ := Option.isSome_iff_exists.mp hsome
    have hrows := saveAll_rows_of_present env l1 (SaveEnvelope st env).1 hl1 hpres1
    refine (SaveEnvelope_duplicate _ e re hre ?_).1
    rw [hrows, hkey]
    exact hpres1
  · exact saveAll_rows_of_present env envs (SaveEnvelope st env).1 hdup hpres1
  · rw [saveAll_rows_of_present env envs (SaveEnvelope st env).1 hdup hpres1]
    have hany : (st.rows.any fun r => r.id == (envelopeKey env).raw) = false := by
      rw [List.any_eq_false]
      intro r hr
      simpa using hfresh r hr
    rw [SaveEnvelope_some st env raw henc, hany]
    simp only [Bool.false_eq_true, if_false]
    rw [List.countP_append]
    have h0 : (st.rows.countP fun r => r.id == (envelopeKey env).raw) = 0 := by
      rw [List.countP_eq_zero]
      intro r hr
      simpa using hfresh r hr
    rw [h0]
    simp [List.countP_cons]

theorem claim_C2_save_idempotent_witness :
    ((saveAll (SaveEnvelope ⟨[], 0, 0, []⟩
        ⟨[1, 2, 3, 4], 100, 40, zeroHash, List.replicate 64 0, some [9, 9], 2⟩).1
        [⟨[1, 2, 3, 4], 100, 40, zeroHash, List.replicate 64 0, some [9, 9], 2⟩]).rows.countP
      fun r => r.id ==
        (envelopeKey ⟨[1, 2, 3, 4], 100, 40, zeroHash, List.replicate 64 0, some [9, 9], 2⟩).raw) = 1 :=
  (claim_C2_save_idempotent ⟨[], 0, 0, []⟩
    ⟨[1, 2, 3, 4], 100, 40, zeroHash, List.replicate 64 0, some [9, 9], 2⟩
    [⟨[1, 2, 3, 4], 100, 40, zeroHash, List.replicate 64 0, some [9, 9], 2⟩]
    [9, 9] rfl (by simp) (by simp)).2.2

/-- C3: before the limit cut, the scan of `BuildIterator` contains exactly the
rows in `[start, cursor)` (cursor excluded) passing the filter when a cursor is
present, and exactly the rows in `[start, end]` (both inclusive) passing the
filter when it is absent; in particular the row at the cursor key is never
returned again. -/
theorem claim_C3_cursor_range (st : PGState) (q : CursorQuery) (r : Row) :
    (r ∈ candidateRows st q ↔
      (r ∈ st.rows ∧ filterB q r = true ∧
        (if 0 < q.cursor.length
         then leBytes q.start r.id = true ∧ ltBytes r.id q.cursor = true
         else leBytes q.start r.id = true ∧ leBytes r.id q.end_ = true))) ∧
    (0 < q.cursor.length → r.id = q.cursor → r ∉ buildIteratorRows st q) := by
  constructor
  · rw [candidateRows, mem_sortDesc, List.mem_filter]
    unfold queryPred rangeB
    by_cases hc : 0 < q.cursor.length <;> simp [hc, Bool.and_eq_true] <;> tauto
  · intro hc heq hmem
    have hmem' : r ∈ candidateRows st q := List.mem_of_mem_take hmem
    rw [candidateRows, mem_sortDesc, List.mem_filter] at hmem'
    have hpred := hmem'.2
    unfold queryPred rangeB at hpred
    rw [if_pos hc] at hpred
    simp only [Bool.and_eq_true] at hpred
    have hlt := hpred.1.2
    rw [heq, ltBytes_irrefl] at hlt
    exact absurd hlt (by simp)

theorem claim_C3_cursor_range_witness :
    (⟨List.replicate 40 1, [7], [0, 0, 0, 0], []⟩ : Row) ∉
      buildIteratorRows ⟨[⟨List.replicate 40 1, [7], [0, 0, 0, 0], []⟩], 0, 0, []⟩
        ⟨List.replicate 40 0, List.replicate 40 9, List.replicate 40 1,
         [[0, 0, 0, 0]], [], 5⟩ :=
  (claim_C3_cursor_range ⟨[⟨List.replicate 40 1, [7], [0, 0, 0, 0], []⟩], 0, 0, []⟩
    ⟨List.replicate 40 0, List.replicate 40 9, List.replicate 40 1,
     [[0, 0, 0, 0]], [], 5⟩
    ⟨List.replicate 40 1, [7], [0, 0, 0, 0], []⟩).2 (by decide) rfl

/-- C4: for a first-page query (no cursor) with `start <= end` over a store
with distinct keys, the iterator yields only rows whose key lies in
`[start, end]`, in strictly descending key order, and at most `limit` rows. -/
theorem claim_C4_order_and_limit (st : PGState) (q : CursorQuery)
    (hcur : q.cursor = []) (hse : leBytes q.start q.end_ = true)
    (hnd : (st.rows.map Row.id).Nodup) :
    (buildIteratorRows st q).length ≤ q.limit ∧
    List.Pairwise (fun a b => ltBytes b.id a.id = true) (buildIteratorRows st q) ∧
    ∀ r ∈ buildIteratorRows st q,
      leBytes q.start r.id = true ∧ leBytes r.id q.end_ = true := by
  refine ⟨List.length_take_le _ _, ?_, ?_⟩
  · exact List.Pairwise.sublist (List.take_sublist _ _)
      (sortDesc_strictSorted _ (((List.filter_sublist st.rows).map Row.id).nodup hnd))
  · intro r hr
    have hr' : r ∈ st.rows.filter (queryPred q) :=
      mem_sortDesc.mp (List.mem_of_mem_take hr)
    have hpred := (List.mem_filter.mp hr').2
    unfold queryPred rangeB at hpred
    rw [hcur] at hpred
    simp only [List.length_nil, Nat.lt_irrefl, if_false, Bool.and_eq_true] at hpred
    exact hpred.1

theorem claim_C4_order_and_limit_witness :
    (buildIteratorRows
      ⟨[⟨List.replicate 40 2, [1], [0, 0, 0, 0], []⟩,
        ⟨List.replicate 40 3, [2], [0, 0, 0, 0], []⟩], 0, 0, []⟩
      ⟨List.replicate 40 0, List.replicate 40 9, [], [[0, 0, 0, 0]], [], 1⟩).length ≤ 1 :=
  (claim_C4_order_and_limit
    ⟨[⟨List.replicate 40 2, [1], [0, 0, 0, 0], []⟩,
      ⟨List.replicate 40 3, [2], [0, 0, 0, 0], []⟩], 0, 0, []⟩
    ⟨List.replicate 40 0, List.replicate 40 9, [], [[0, 0, 0, 0]], [], 1⟩
    rfl (by decide) (by decide)).1

/-- C5: every row the iterator yields satisfies the selected filter — exact
membership of the stored topic in the topic set when topics are supplied,
bloom containment (stored AND query = stored) otherwise — and always
additionally the time-range bounds of the scan. -/
theorem claim_C5_filter_selection (st : PGState) (q : CursorQuery) :
    ∀ r ∈ buildIteratorRows st q,
      (if 0 < q.topics.length then r.topic ∈ q.topics
       else bitAnd r.bloom (bit512 q.bloom) = r.bloom) ∧
      (if 0 < q.cursor.length
       then leBytes q.start r.id = true ∧ ltBytes r.id q.cursor = true
       else leBytes q.start r.id = true ∧ leBytes r.id q.end_ = true) := by
  intro r hr
  have hr' : r ∈ st.rows.filter (queryPred q) :=
    mem_sortDesc.mp (List.mem_of_mem_take hr)
  have hpred := (List.mem_filter.mp hr').2
  unfold queryPred at hpred
  rw [Bool.and_eq_true] at hpred
  constructor
  · have hf := hpred.2
    unfold filterB at hf
    by_cases ht : 0 < q.topics.length
    · rw [if_pos ht] at hf ⊢
      simpa using hf
    · rw [if_neg ht] at hf ⊢
      simpa using hf
  · have hg := hpred.1
    unfold rangeB at hg
    by_cases hc : 0 < q.cursor.length
    · rw [if_pos hc] at hg ⊢
      simpa using hg
    · rw [if_neg hc] at hg ⊢
      simpa using hg

set_option maxRecDepth 8000 in
theorem claim_C5_filter_selection_witness :
    bitAnd (List.replicate 512 false) (bit512 [1, 2]) = List.replicate 512 false := by
  have h := claim_C5_filter_selection
    ⟨[⟨List.replicate 40 1, [5], [0, 0, 0, 0], List.replicate 512 false⟩], 0, 0, []⟩
    ⟨List.replicate 40 0, List.replicate 40 9, [], [], [1, 2], 3⟩
    ⟨List.replicate 40 1, [5], [0, 0, 0, 0], List.replicate 512 false⟩ (by decide)
  simpa using h.1

/-- C8 counterexample: a query with `limit = 0` is not rejected before backend
work: `BuildIterator` succeeds (it opens the scan and returns an iterator),
instead of failing with an invalid-query error as the claim states. -/
theorem claim_C8_counterexample :
    (⟨[], [], [], [], [], 0⟩ : CursorQuery).limit = 0 ∧
    BuildIterator ⟨[], 0, 0, []⟩ ⟨[], [], [], [], [], 0⟩ = Except.ok [] :=
  ⟨rfl, rfl⟩

/-- C8 amended: `BuildIterator` performs no parameter validation at all: every
query (including `limit <= 0`) opens a scan and succeeds (absent driver
failures, which the model excludes), and a `limit = 0` scan yields no rows. -/
theorem claim_C8_no_validation (st : PGState) (q : CursorQuery) :
    (∃ rows, BuildIterator st q = Except.ok rows) ∧
    (q.limit = 0 → buildIteratorRows st q = []) := by
  refine ⟨⟨buildIteratorRows st q, rfl⟩, ?_⟩
  intro h
  rw [buildIteratorRows, h]
  rfl

theorem claim_C8_no_validation_witness :
    buildIteratorRows ⟨[⟨List.replicate 40 1, [5], [0, 0, 0, 0], []⟩], 0, 0, []⟩
      ⟨[], List.replicate 40 9, [], [], [], 0⟩ = [] :=
  (claim_C8_no_validation ⟨[⟨List.replicate 40 1, [5], [0, 0, 0, 0], []⟩], 0, 0, []⟩
    ⟨[], List.replicate 40 9, [], [], [], 0⟩).2 rfl

/-- C6 counterexample: the `DELETE ... BETWEEN` upper bound is the inclusive
key (t, zero topic, zero hash), so `Prune t` deletes a row whose sent time is
exactly `t` — not strictly less than `t` — when its topic and hash are zero. -/
theorem claim_C6_counterexample :
    keySentTime (pruneUpperKey 5).raw = 5 ∧
    ¬ keySentTime (pruneUpperKey 5).raw < 5 ∧
    (Prune ⟨[⟨(pruneUpperKey 5).raw, [1], [0, 0, 0, 0], []⟩], 0, 0, []⟩ 5 1).1.rows = [] ∧
    (Prune ⟨[⟨(pruneUpperKey 5).raw, [1], [0, 0, 0, 0], []⟩], 0, 0, []⟩ 5 1).2 = 1 :=
  ⟨by decide, by decide, by decide, by decide⟩

/-- C6 amended: `Prune t` removes exactly the rows whose sent time is strictly
below `t` plus (at most) the single boundary row whose key is exactly
(t, zero topic, zero hash); the returned count plus the surviving rows account
for every row; and re-invoking `Prune` with the same cutoff removes zero
further rows and leaves the state unchanged. -/
theorem claim_C6_prune_correct_amended (st : PGState) (t b : Nat)
    (ht : t < 2 ^ 32) (hv : ∀ r ∈ st.rows, validId r.id) :
    (Prune st t b).1.rows =
      st.rows.filter (fun r =>
        !(decide (keySentTime r.id < t) || decide (r.id = (pruneUpperKey t).raw))) ∧
    (Prune st t b).2 + (Prune st t b).1.rows.length = st.rows.length ∧
    Prune (Prune st t b).1 t b = ((Prune st t b).1, 0) := by
  have hpt : ∀ r ∈ st.rows, pruneInRange t r =
      (decide (keySentTime r.id < t) || decide (r.id = (pruneUpperKey t).raw)) := by
    intro r hr
    have h := pruneInRange_iff t r ht (hv r hr)
    rcases hb : pruneInRange t r with _ | _ <;> rw [hb] at h
    · have h1 : ¬ (keySentTime r.id < t ∨ r.id = (pruneUpperKey t).raw) := by
        rw [← h]
        simp
      push_neg at h1
      simp [h1.1, h1.2]
    · have h1 : keySentTime r.id < t ∨ r.id = (pruneUpperKey t).raw := h.mp rfl
      rcases h1 with h1 | h1 <;> simp [h1]
  have hfilter : (Prune st t b).1.rows =
      st.rows.filter (fun r =>
        !(decide (keySentTime r.id < t) || decide (r.id = (pruneUpperKey t).raw))) := by
    show st.rows.filter (fun r => !(pruneInRange t r)) = _
    refine List.filter_congr ?_
    intro r hr
    rw [hpt r hr]
  refine ⟨hfilter, ?_, ?_⟩
  · show (st.rows.countP fun r => pruneInRange t r) +
      (st.rows.filter (fun r => !(pruneInRange t r))).length = st.rows.length
    rw [← List.countP_eq_length_filter]
    have h := List.length_eq_countP_add_countP (p := fun r => pruneInRange t r) st.rows
    rw [h]
    have hcong : (st.rows.countP fun r => !(pruneInRange t r)) =
        (st.rows.countP fun a => ¬ (pruneInRange t a) = true) := by
      refine List.countP_congr ?_
      intro a _
      simp
    rw [hcong]
  · have hidem : (Prune st t b).1.rows.filter (fun r => !(pruneInRange t r)) =
        (Prune st t b).1.rows := by
      rw [List.filter_eq_self]
      intro a ha
      have ha' : a ∈ st.rows.filter (fun r => !(pruneInRange t r)) := ha
      exact (List.mem_filter.mp ha').2
    have h1 : (Prune (Prune st t b).1 t b).1 = (Prune st t b).1 := by
      show { (Prune st t b).1 with
        rows := (Prune st t b).1.rows.filter (fun r => !(pruneInRange t r)) } =
        (Prune st t b).1
      rw [hidem]
    have h2 : (Prune (Prune st t b).1 t b).2 = 0 := by
      show ((Prune st t b).1.rows.countP fun r => pruneInRange t r) = 0
      rw [List.countP_eq_zero]
      intro a ha
      have ha' : a ∈ st.rows.filter (fun r => !(pruneInRange t r)) := ha
      have hne := (List.mem_filter.mp ha').2
      simp only [Bool.not_eq_true'] at hne
      simp [hne]
    exact Prod.ext h1 h2

theorem claim_C6_prune_correct_amended_witness :
    (Prune ⟨[⟨beBytes4 3 ++ [1, 2, 3, 4] ++ List.replicate 32 9, [1], [1, 2, 3, 4], []⟩,
             ⟨beBytes4 7 ++ [1, 2, 3, 4] ++ List.replicate 32 9, [2], [1, 2, 3, 4], []⟩],
            0, 0, []⟩ 5 2).2 +
    (Prune ⟨[⟨beBytes4 3 ++ [1, 2, 3, 4] ++ List.replicate 32 9, [1], [1, 2, 3, 4], []⟩,
             ⟨beBytes4 7 ++ [1, 2, 3, 4] ++ List.replicate 32 9, [2], [1, 2, 3, 4], []⟩],
            0, 0, []⟩ 5 2).1.rows.length = 2 :=
  (claim_C6_prune_correct_amended
    ⟨[⟨beBytes4 3 ++ [1, 2, 3, 4] ++ List.replicate 32 9, [1], [1, 2, 3, 4], []⟩,
      ⟨beBytes4 7 ++ [1, 2, 3, 4] ++ List.replicate 32 9, [2], [1, 2, 3, 4], []⟩],
     0, 0, []⟩ 5 2 (by norm_num) (by decide)).2.1

theorem rangeB_set_cursor (q : CursorQuery) (c : List Nat) (x : Row) :
    rangeB { q with cursor := c } x =
      if 0 < c.length then leBytes q.start x.id && ltBytes x.id c
      else leBytes q.start x.id && leBytes x.id q.end_ := rfl

theorem filterB_set_cursor (q : CursorQuery) (c : List Nat) (x : Row) :
    filterB { q with cursor := c } x = filterB q x := rfl

theorem queryPred_cursor_step (q : CursorQuery) (r x : Row)
    (hrid : 0 < r.id.length)
    (hcases : (0 < q.cursor.length → ltBytes r.id q.cursor = true) ∧
              (¬ 0 < q.cursor.length → leBytes r.id q.end_ = true)) :
    queryPred { q with cursor := r.id } x = (queryPred q x && ltBytes x.id r.id) := by
  unfold queryPred
  rw [rangeB_set_cursor, filterB_set_cursor, if_pos hrid]
  unfold rangeB
  by_cases hc : 0 < q.cursor.length
  · rw [if_pos hc]
    cases hB : ltBytes x.id r.id
    · simp [hB]
    · have hxc : ltBytes x.id q.cursor = true := ltBytes_trans _ _ _ hB (hcases.1 hc)
      simp [hB, hxc, Bool.and_comm, Bool.and_assoc]
  · rw [if_neg hc]
    cases hB : ltBytes x.id r.id
    · simp [hB]
    · have hxe : leBytes x.id q.end_ = true :=
        leBytes_of_lt _ _ (ltBytes_of_lt_of_le _ _ _ hB (hcases.2 hc))
      simp [hB, hxe, Bool.and_comm, Bool.and_assoc]

theorem candidateRows_cursor_step (st : PGState) (q : CursorQuery) (r : Row)
    (hnd : (st.rows.map Row.id).Nodup)
    (hne : ∀ x ∈ st.rows, x.id ≠ [])
    (hr : r ∈ candidateRows st q) :
    candidateRows st { q with cursor := r.id } =
      (candidateRows st q).filter (fun x => ltBytes x.id r.id) := by
  have hrmem : r ∈ st.rows.filter (queryPred q) := mem_sortDesc.mp hr
  have hrrows := (List.mem_filter.mp hrmem).1
  have hrpred := (List.mem_filter.mp hrmem).2
  have hrid : 0 < r.id.length := List.length_pos.mpr (hne r hrrows)
  have hcases : (0 < q.cursor.length → ltBytes r.id q.cursor = true) ∧
      (¬ 0 < q.cursor.length → leBytes r.id q.end_ = true) := by
    unfold queryPred rangeB at hrpred
    constructor
    · intro hc
      rw [if_pos hc] at hrpred
      simp only [Bool.and_eq_true] at hrpred
      exact hrpred.1.2
    · intro hc
      rw [if_neg hc] at hrpred
      simp only [Bool.and_eq_true] at hrpred
      exact hrpred.1.2
  unfold candidateRows
  rw [List.filter_congr (fun x _ => queryPred_cursor_step q r x hrid hcases)]
  have hff : st.rows.filter (fun x => queryPred q x && ltBytes x.id r.id) =
      (st.rows.filter (queryPred q)).filter (fun x => ltBytes x.id r.id) := by
    rw [List.filter_filter]
    refine List.filter_congr ?_
    intro x _
    rw [Bool.and_comm]
  rw [hff]
  exact sortDesc_filter_comm _ _ (((List.filter_sublist st.rows).map Row.id).nodup hnd)

theorem filter_lt_getLast_take : ∀ (M : List Row) (k : Nat) (r : Row),
    List.Pairwise rowGT M → 1 ≤ k → (M.take k).getLast? = some r →
    M.filter (fun x => ltBytes x.id r.id) = M.drop k := by
  intro M
  induction M with
  | nil =>
    intro k r _ _ h
    simp at h
  | cons a t ih =>
    intro k r hpw hk hlast
    rcases k with _ | k
    · omega
    rcases k with _ | k
    · rw [List.take_succ_cons, List.take_zero, List.getLast?_singleton] at hlast
      have hra : a = r := by simpa using hlast
      subst hra
      rw [List.drop_succ_cons, List.drop_zero]
      rw [List.filter_cons_of_neg (by simp [ltBytes_irrefl])]
      rw [List.filter_eq_self]
      intro x hx
      exact (List.pairwise_cons.mp hpw).1 x hx
    · rw [List.take_succ_cons] at hlast
      cases t with
      | nil =>
        rw [List.take_nil, List.getLast?_singleton] at hlast
        have hra : a = r := by simpa using hlast
        subst hra
        rw [List.filter_cons_of_neg (by simp [ltBytes_irrefl])]
        simp
      | cons b t' =>
        have hlast' : ((b :: t').take (k + 1)).getLast? = some r := by
          rw [List.take_succ_cons] at hlast ⊢
          rw [List.getLast?_cons_cons] at hlast
          exact hlast
        have hpw' := (List.pairwise_cons.mp hpw).2
        have hrec := ih (k + 1) r hpw' (by omega) hlast'
        have hrmem : r ∈ b :: t' :=
          List.mem_of_mem_take (List.mem_of_getLast?_eq_some hlast')
        have hra : ltBytes r.id a.id = true := (List.pairwise_cons.mp hpw).1 r hrmem
        rw [List.drop_succ_cons]
        rw [List.filter_cons_of_neg (by simp [ltBytes_asymm r.id a.id hra])]
        exact hrec

theorem runPages_eq_candidates (st : PGState)
    (hnd : (st.rows.map Row.id).Nodup)
    (hne : ∀ x ∈ st.rows, x.id ≠ []) :
    ∀ (fuel : Nat) (q : CursorQuery), 1 ≤ q.limit →
      (candidateRows st q).length < fuel →
      runPages st fuel q = candidateRows st q := by
  intro fuel
  induction fuel with
  | zero =>
    intro q _ h
    omega
  | succ fuel ih =>
    intro q hlim hlen
    have hcand_nd : ((st.rows.filter (queryPred q)).map Row.id).Nodup :=
      ((List.filter_sublist st.rows).map Row.id).nodup hnd
    have hsorted : List.Pairwise rowGT (candidateRows st q) :=
      sortDesc_strictSorted _ hcand_nd
    simp only [runPages]
    by_cases hshort : (buildIteratorRows st q).length < q.limit
    · rw [if_pos hshort]
      rw [buildIteratorRows] at hshort ⊢
      rw [List.length_take] at hshort
      rcases Nat.le_total q.limit (candidateRows st q).length with hle | hle
      · rw [Nat.min_eq_left hle] at hshort
        omega
      · exact List.take_of_length_le hle
    · rw [if_neg hshort]
      have hClen : q.limit ≤ (candidateRows st q).length := by
        by_contra hcon
        push_neg at hcon
        refine hshort ?_
        rw [buildIteratorRows, List.length_take, Nat.min_eq_right (Nat.le_of_lt hcon)]
        exact hcon
      have hplen : (buildIteratorRows st q).length = q.limit := by
        rw [buildIteratorRows, List.length_take, Nat.min_eq_left hClen]
      cases hg : (buildIteratorRows st q).getLast? with
      | none =>
        rw [List.getLast?_eq_none_iff] at hg
        rw [hg] at hplen
        simp at hplen
        omega
      | some r =>
        have hrC : r ∈ candidateRows st q :=
          List.mem_of_mem_take (List.mem_of_getLast?_eq_some hg)
        have hstep : candidateRows st { q with cursor := r.id } =
            (candidateRows st q).drop q.limit := by
          rw [candidateRows_cursor_step st q r hnd hne hrC]
          exact filter_lt_getLast_take (candidateRows st q) q.limit r hsorted hlim hg
        have hlt : (candidateRows st { q with cursor := r.id }).length < fuel := by
          rw [hstep, List.length_drop]
          omega
        have hrec := ih { q with cursor := r.id } hlim hlt
        show buildIteratorRows st q ++
            runPages st fuel { q with cursor := r.id } = candidateRows st q
        rw [hrec, hstep, buildIteratorRows, List.take_append_drop]

/-- C9: starting from a cursorless query and repeatedly feeding the last
returned key back as the cursor until a page comes back with fewer than
`limit` rows, the concatenation of the pages is exactly the single unbounded
query over the same range and filter — no row twice, none omitted. -/
theorem claim_C9_pagination (st : PGState) (q : CursorQuery)
    (hnd : (st.rows.map Row.id).Nodup)
    (hne : ∀ x ∈ st.rows, x.id ≠ [])
    (hcur : q.cursor = []) (hlim : 1 ≤ q.limit) :
    runPages st (st.rows.length + 1) q =
      buildIteratorRows st { q with limit := st.rows.length } ∧
    ((runPages st (st.rows.length + 1) q).map Row.id).Nodup := by
  have hClen : (candidateRows st q).length ≤ st.rows.length := by
    rw [candidateRows, (sortDesc_perm _).length_eq]
    exact List.length_filter_le _ _
  have hmain := runPages_eq_candidates st hnd hne (st.rows.length + 1) q hlim
    (by omega)
  have hunb : buildIteratorRows st { q with limit := st.rows.length } =
      candidateRows st q := by
    rw [buildIteratorRows]
    have hsame : candidateRows st { q with limit := st.rows.length } =
        candidateRows st q := rfl
    rw [hsame]
    exact List.take_of_length_le hClen
  refine ⟨by rw [hmain, hunb], ?_⟩
  rw [hmain]
  refine (((sortDesc_perm _).map Row.id).nodup_iff).mpr ?_
  exact ((List.filter_sublist st.rows).map Row.id).nodup hnd

theorem claim_C9_pagination_witness :
    ((runPages ⟨[⟨List.replicate 40 1, [1], [0, 0, 0, 0], []⟩,
                 ⟨List.replicate 40 2, [2], [0, 0, 0, 0], []⟩,
                 ⟨List.replicate 40 3, [3], [0, 0, 0, 0], []⟩], 0, 0, []⟩ 4
        ⟨List.replicate 40 0, List.replicate 40 9, [], [[0, 0, 0, 0]], [], 1⟩).map
      Row.id).Nodup :=
  (claim_C9_pagination
    ⟨[⟨List.replicate 40 1, [1], [0, 0, 0, 0], []⟩,
      ⟨List.replicate 40 2, [2], [0, 0, 0, 0], []⟩,
      ⟨List.replicate 40 3, [3], [0, 0, 0, 0], []⟩], 0, 0, []⟩
    ⟨List.replicate 40 0, List.replicate 40 9, [], [[0, 0, 0, 0]], [], 1⟩
    (by decide) (by decide) rfl (by decide)).2

end Mailserver
